import Mathlib

/-!
Verification of the core control flow of the vibe-llama repository:
the diff-based iterative editing workflow
(`src/vibe_llama/docuflows/editing/__init__.py`), the tag-dispatch of
`LlamaVibeWorkflow` (`src/vibe_llama/docuflows/ai_agent_cli.py`) and the
intent-interpretation fallback
(`src/vibe_llama/docuflows/handlers/workflow_editing.py`).

Strings are modelled as `List Char`; Python's `strip`, `lower`,
substring test (`in`) and `str.replace(old, new, 1)` are embedded
explicitly below.
-/

namespace VibeLlama

/-- Strings of the embedded program, modelled as lists of characters. -/
abbrev Str := List Char

/-- Coerce a Lean string literal into the embedded string type. -/
def str (s : String) : Str := s.toList

/-- Index of the first occurrence of `pat` in `s`, as Python's `s.find(pat)`
(`none` when absent; the empty pattern occurs at index 0). -/
def firstIdx? (s pat : Str) : Option Nat :=
  if pat.isPrefixOf s then some 0
  else
    match s with
    | [] => none
    | _ :: rest => (firstIdx? rest pat).map (· + 1)

/-- Python's substring test `pat in s`. -/
def containsSub (s pat : Str) : Bool := (firstIdx? s pat).isSome

/-- Python's `s.replace(old, new, 1)`: replace the first occurrence only. -/
def replaceFirst (s old new : Str) : Str :=
  match firstIdx? s old with
  | none => s
  | some i => s.take i ++ new ++ s.drop (i + old.length)

/-- Python's `str.lower` restricted to the characters the claims use. -/
def pyLower (s : Str) : Str := s.map Char.toLower

/-- Whitespace stripped by Python's `str.strip()`. -/
def isPySpace (c : Char) : Bool :=
  c == ' ' || c == '\t' || c == '\n' || c == '\r' || c == '\x0b' || c == '\x0c'

/-- Python's `str.strip()`. -/
def pyStrip (s : Str) : Str :=
  ((s.dropWhile isPySpace).reverse.dropWhile isPySpace).reverse

/-- Python's `", ".join(xs)`. -/
def joinComma : List Str → Str
  | [] => []
  | [s] => s
  | s :: rest => s ++ str ", " ++ joinComma rest

/-! ### Data model of the diff editing workflow
(`src/vibe_llama/docuflows/editing/__init__.py`) -/

/-- `CodeDiff`: a single text replacement (fields `old_text`, `new_text`,
`reason`). -/
structure CodeDiff where
  old_text : Str
  new_text : Str
  reason : Str
deriving DecidableEq, Repr

/-- `DiffPlan`: ordered list of diffs plus a summary. -/
structure DiffPlan where
  diffs : List CodeDiff
  summary : Str
deriving DecidableEq, Repr

/-- `ValidationResult` returned by the verifier. -/
structure ValidationResult where
  is_valid : Bool
  issues_found : List Str
  suggestions : List Str
deriving DecidableEq, Repr

/-- One element of the `applied_changes` list built by `apply_diffs`
(a Python dict with keys reason/old_text/new_text/success and, on
failure, error). -/
structure AppliedChange where
  reason : Str
  old_text : Str
  new_text : Str
  success : Bool
  error : Option Str
deriving DecidableEq, Repr

/-- One element of `edit_history` appended by `validate_code`. -/
structure EditHistoryEntry where
  iteration : Nat
  request : Str
  applied_changes : List AppliedChange
  result_preview : Str
deriving DecidableEq, Repr

/-- The `EditRequest` start event (context fields that only feed LLM
prompts are absorbed into the capability oracle below). -/
structure EditRequest where
  current_workflow : Str
  edit_request : Str
  max_iterations : Nat
deriving DecidableEq, Repr

/-- The `EditSessionState` fields used by the workflow's control flow. -/
structure EditState where
  current_code : Str
  original_request : Str
  max_iterations : Nat
  edit_history : List EditHistoryEntry
  iteration : Nat
deriving DecidableEq, Repr

/-- `DiffGenerated` event. -/
structure DiffGenerated where
  diff_plan : DiffPlan
  iteration : Nat
deriving DecidableEq, Repr

/-- `DiffsApplied` event. -/
structure DiffsApplied where
  updated_code : Str
  applied_changes : List AppliedChange
  iteration : Nat
deriving DecidableEq, Repr

/-- `ValidationCompleted` event. -/
structure ValidationCompleted where
  validation : ValidationResult
  current_code : Str
  iteration : Nat
deriving DecidableEq, Repr

/-- `EditCompleted` stop event. -/
structure EditCompleted where
  final_code : Str
  edit_history : List EditHistoryEntry
  total_iterations : Nat
deriving DecidableEq, Repr

/-- Outcome of an external capability call: a value, or a raised
exception carrying a message. -/
inductive CapResult (α : Type) where
  | ok (val : α)
  | fail (msg : Str)
deriving DecidableEq, Repr

/-- Behaviour of the two external LLM capabilities.  `propose` sees the
whole session state, the edit request and the iteration number
(everything `_generate_diff_plan` feeds into its prompt); `verify` sees
the updated code and the original request (`_validate_code`'s varying
inputs).  Theorems quantify over all capabilities, so always-raising or
always-invalid behaviours are included. -/
structure Capabilities where
  propose : EditState → Str → Nat → CapResult DiffPlan
  verify : Str → Str → CapResult ValidationResult

/-! ### The workflow steps -/

/-- `_generate_diff_plan`: calls the proposer; on exception falls back to
an empty plan whose summary carries the error message. -/
def generate_diff_plan (cap : Capabilities) (st : EditState)
    (edit_request : Str) (iteration : Nat) : DiffGenerated :=
  match cap.propose st edit_request iteration with
  | .ok plan => ⟨plan, iteration⟩
  | .fail e => ⟨⟨[], str "Error generating diffs: " ++ e⟩, iteration⟩

/-- One step of the diff loop body: `if diff.old_text not in working_code`
record a failure and continue, else replace the first occurrence and
record success. -/
def applyOne (code : Str) (d : CodeDiff) : Str × AppliedChange :=
  if containsSub code d.old_text then
    (replaceFirst code d.old_text d.new_text,
      ⟨d.reason, d.old_text, d.new_text, true, none⟩)
  else
    (code, ⟨d.reason, d.old_text, d.new_text, false, some (str "Text not found")⟩)

/-- The `for` loop of `apply_diffs`: fold the diffs in plan order over the
working copy, collecting one `AppliedChange` per diff. -/
def applyDiffList : Str → List CodeDiff → Str × List AppliedChange
  | code, [] => (code, [])
  | code, d :: ds =>
    let r := applyOne code d
    let rest := applyDiffList r.1 ds
    (rest.1, r.2 :: rest.2)

/-- The working copy after the first `i` diffs of the plan have been
attempted. -/
def workAt (code : Str) (ds : List CodeDiff) (i : Nat) : Str :=
  (ds.take i).foldl (fun c d => (applyOne c d).1) code

/-- `apply_diffs` step: empty plan short-circuits with the stored code and
no applied changes (and without touching the state); otherwise the diffs
are applied in order and the state's `current_code` is updated. -/
def apply_diffs (st : EditState) (ev : DiffGenerated) : EditState × DiffsApplied :=
  if ev.diff_plan.diffs.isEmpty then
    (st, ⟨st.current_code, [], ev.iteration⟩)
  else
    let r := applyDiffList st.current_code ev.diff_plan.diffs
    ({ st with current_code := r.1 }, ⟨r.1, r.2, ev.iteration⟩)

/-- `result_preview` truncation used in the history entry. -/
def resultPreview (code : Str) : Str :=
  if 200 < code.length then code.take 200 ++ str "..." else code

/-- `_validate_code`: calls the verifier; on exception falls back to
`is_valid := true` with the error message kept in `issues_found`. -/
def validationResultOf (cap : Capabilities) (code origReq : Str) : ValidationResult :=
  match cap.verify code origReq with
  | .ok v => v
  | .fail e => ⟨true, [str "Validation error: " ++ e], []⟩

/-- `validate_code` step: append this iteration's `EditHistoryEntry`
(request, applied changes, truncated preview), then validate. -/
def validate_code (cap : Capabilities) (st : EditState) (ev : DiffsApplied) :
    EditState × ValidationCompleted :=
  let entry : EditHistoryEntry :=
    ⟨ev.iteration,
      if ev.iteration = 1 then st.original_request
      else str "Refinement based on validation",
      ev.applied_changes,
      resultPreview ev.updated_code⟩
  let st1 := { st with edit_history := st.edit_history ++ [entry] }
  (st1,
    ⟨validationResultOf cap ev.updated_code st.original_request,
      ev.updated_code, ev.iteration⟩)

/-- Result of `check_completion`: stop, or loop with a refreshed state and
the next generated plan. -/
inductive CheckOutcome where
  | done (ec : EditCompleted)
  | next (st : EditState) (dg : DiffGenerated)
deriving Repr

/-- `check_completion` step: stop when valid; loop (with a request
synthesized from issues and suggestions) while `iteration <
max_iterations`; otherwise stop with the best-effort result. -/
def check_completion (cap : Capabilities) (st : EditState)
    (ev : ValidationCompleted) : CheckOutcome :=
  if ev.validation.is_valid then
    .done ⟨ev.current_code, st.edit_history, ev.iteration⟩
  else if ev.iteration < st.max_iterations then
    let newReq := str "Fix these issues: " ++ joinComma ev.validation.issues_found
      ++ str ". Suggestions: " ++ joinComma ev.validation.suggestions
    let st2 := { st with iteration := ev.iteration + 1 }
    .next st2 (generate_diff_plan cap st2 newReq (ev.iteration + 1))
  else
    .done ⟨ev.current_code, st.edit_history, ev.iteration⟩

/-- One APPLY → VALIDATE → completion-check round of the state machine. -/
def run_iteration (cap : Capabilities) (st : EditState) (dg : DiffGenerated) :
    CheckOutcome :=
  check_completion cap
    (validate_code cap (apply_diffs st dg).1 (apply_diffs st dg).2).1
    (validate_code cap (apply_diffs st dg).1 (apply_diffs st dg).2).2

/-- The event loop, driven with explicit fuel (the Python `workflows`
engine keeps stepping until a stop event; fuel `max_iterations` is shown
sufficient below). -/
def runLoop (cap : Capabilities) : Nat → EditState → DiffGenerated → Option EditCompleted
  | 0, st, dg =>
    match run_iteration cap st dg with
    | .done ec => some ec
    | .next _ _ => none
  | fuel + 1, st, dg =>
    match run_iteration cap st dg with
    | .done ec => some ec
    | .next st2 dg2 => runLoop cap fuel st2 dg2

/-- `start_editing`: initialize the session state (iteration 1, empty
history) and generate the first diff plan from the user's request. -/
def start_editing (cap : Capabilities) (req : EditRequest) :
    EditState × DiffGenerated :=
  let st : EditState :=
    ⟨req.current_workflow, req.edit_request, req.max_iterations, [], 1⟩
  (st, generate_diff_plan cap st req.edit_request 1)

/-- The whole `DiffEditingWorkflow` run on an `EditRequest`. -/
def runWorkflow (cap : Capabilities) (req : EditRequest) : Option EditCompleted :=
  runLoop cap req.max_iterations (start_editing cap req).1 (start_editing cap req).2

/-! ### Concrete capability behaviours and inputs used as witnesses -/

/-- Proposer and verifier that always raise. -/
def alwaysFailCap : Capabilities :=
  ⟨fun _ _ _ => .fail (str "boom"), fun _ _ => .fail (str "crash")⟩

/-- Proposer that raises; verifier that always answers `is_valid=false`. -/
def alwaysInvalidCap : Capabilities :=
  ⟨fun _ _ _ => .fail (str "boom"), fun _ _ => .ok ⟨false, [str "bad"], [str "fix"]⟩⟩

/-- A small concrete edit request with budget 1. -/
def sampleReq : EditRequest := ⟨str "code", str "request", 1⟩

/-- A small concrete edit request with budget 3. -/
def sampleReq3 : EditRequest := ⟨str "code", str "request", 3⟩

/-- A small concrete session state. -/
def sampleState : EditState := ⟨str "hello", str "make it nice", 3, [], 1⟩

/-- A two-op plan whose first op's `old_text` is absent from `"hello"`. -/
def samplePlanMiss : DiffGenerated :=
  ⟨⟨[⟨str "xyz", str "w", str "r1"⟩, ⟨str "hello", str "bye", str "r2"⟩], str "s"⟩, 1⟩

/-- A plan with no ops. -/
def samplePlanEmpty : DiffGenerated := ⟨⟨[], str "nothing"⟩, 1⟩

/-! ### Tag dispatch of `LlamaVibeWorkflow`
(`src/vibe_llama/docuflows/ai_agent_cli.py`)

Each `@step` handler taking a `HumanResponseEvent` begins with a guard on
the event's optional `tag` attribute and returns `None` ("not mine") when
the guard rejects.  `tag = none` models a missing attribute, `some []` an
empty (falsy) tag. -/

/-- The ten `HumanResponseEvent` handlers of `LlamaVibeWorkflow`. -/
inductive HandlerId where
  | general
  | folder_name
  | load_workflow
  | file_selection
  | config_menu
  | config_edit
  | model_selection
  | review_diff
  | review_edit
  | test_workflow
deriving DecidableEq, Repr

/-- All handlers, for quantifier-free statements. -/
def handlerIds : List HandlerId :=
  [.general, .folder_name, .load_workflow, .file_selection, .config_menu,
    .config_edit, .model_selection, .review_diff, .review_edit, .test_workflow]

/-- Guard of each handler, read off its leading `if`:
`handle_general_input` rejects iff the tag is present, truthy and not
`"general"`; `handle_config_edit_input` requires a truthy tag starting
with `"config_edit_"`; every other handler requires exact tag equality. -/
def acceptsTag : HandlerId → Option Str → Bool
  | .general, t =>
    match t with
    | none => true
    | some s => s.isEmpty || s == str "general"
  | .folder_name, t => t == some (str "folder_name_input")
  | .load_workflow, t => t == some (str "load_workflow")
  | .file_selection, t => t == some (str "file_selection")
  | .config_menu, t => t == some (str "config_menu")
  | .config_edit, t =>
    match t with
    | none => false
    | some s => !s.isEmpty && (str "config_edit_").isPrefixOf s
  | .model_selection, t => t == some (str "model_selection")
  | .review_diff, t => t == some (str "review_diff_conversational")
  | .review_edit, t => t == some (str "review_edit")
  | .test_workflow, t => t == some (str "test_workflow")

/-- Whether any handler at all accepts the tag. -/
def anyHandlerAccepts (t : Option Str) : Bool :=
  handlerIds.any (fun h => acceptsTag h t)

/-- What a handler step returns to the `workflows` engine. -/
inductive StepResult where
  | unhandled
  | input_required (tag : Option Str)
  | tool_calls
  | stop (result : Str)
deriving DecidableEq, Repr

/-- Results of the sub-handlers `handle_configuration`,
`handle_slash_command`, `handle_help` and `handle_chat`: their annotated
return types are unions of `InputRequiredEvent`, `ToolCallsEvent` and
`None`, and none of them constructs a `StopEvent` anywhere in their
bodies. -/
inductive NonStopResult where
  | input_required (tag : Option Str)
  | tool_calls
  | no_event
deriving DecidableEq, Repr

/-- Inject a sub-handler result into the step-result type. -/
def NonStopResult.toStep : NonStopResult → StepResult
  | .input_required t => .input_required t
  | .tool_calls => .tool_calls
  | .no_event => .unhandled

/-- Behaviours of the four sub-handlers delegated to by
`handle_general_input` (each may depend on the user input). -/
structure SubHandlers where
  configuration : Str → NonStopResult
  slash : Str → NonStopResult
  help : NonStopResult
  chat : Str → NonStopResult

/-- The quit commands checked by `handle_general_input`. -/
def quitCommands : List Str := [str "quit", str "exit", str "bye"]

/-- `handle_general_input`: guard, then configuration state, quit
commands, slash commands, help, and finally regular chat — in source
order. -/
def handle_general_input (sub : SubHandlers) (appState : Str)
    (tag : Option Str) (response : Str) : StepResult :=
  if acceptsTag HandlerId.general tag then
    if appState = str "configuring" then (sub.configuration (pyStrip response)).toStep
    else if quitCommands.contains (pyLower (pyStrip response)) then
      .stop (str "👋 Goodbye!")
    else if (str "/").isPrefixOf (pyStrip response) then
      (sub.slash (pyStrip response)).toStep
    else if pyLower (pyStrip response) = str "help" then sub.help.toStep
    else (sub.chat (pyStrip response)).toStep
  else .unhandled

/-- `handle_edit_workflow`
(`src/vibe_llama/docuflows/handlers/workflow_editing.py`): runs the diff
editing sub-workflow and suspends asking for review with tag
`review_diff_conversational`; its `except` branch suspends with an
untagged `InputRequiredEvent` — it never stops the session. -/
def handle_edit_workflow (cap : Capabilities) (req : EditRequest) : StepResult :=
  match runWorkflow cap req with
  | some _ => .input_required (some (str "review_diff_conversational"))
  | none => .input_required none

/-- Sub-handler behaviours used in witnesses. -/
def sampleSub : SubHandlers :=
  ⟨fun _ => .input_required none, fun _ => .input_required none,
    .input_required none, fun _ => .tool_calls⟩

/-! ### `interpret_user_intent`
(`src/vibe_llama/docuflows/handlers/workflow_editing.py`) -/

/-- Approve keywords of the fallback branch, in source order. -/
def approveWords : List Str :=
  [str "y", str "yes", str "approve", str "good", str "perfect", str "ok"]

/-- Exit keywords of the fallback branch, in source order. -/
def exitWords : List Str :=
  [str "cancel", str "exit", str "test", str "load", str "stop"]

/-- The `except` branch of `interpret_user_intent`: substring keyword
matching over the lowercased input, approve keywords first. -/
def interpret_user_intent_fallback (user_input : Str) : Str :=
  if approveWords.any (fun w => containsSub (pyLower user_input) w) then
    str "approve"
  else if exitWords.any (fun w => containsSub (pyLower user_input) w) then
    str "exit"
  else str "continue"

/-- `interpret_user_intent`: the LLM classification when it succeeds,
the keyword fallback when it raises. -/
def interpret_user_intent (llm : Str → CapResult Str) (user_input : Str) : Str :=
  match llm user_input with
  | .ok r => r
  | .fail _ => interpret_user_intent_fallback user_input

/-! ### Basic facts about the string helpers -/

theorem isPrefixOf_eq_true_iff (l1 l2 : Str) :
    l1.isPrefixOf l2 = true ↔ ∃ t, l2 = l1 ++ t := by
  induction l1 generalizing l2 with
  | nil => simp [List.isPrefixOf]
  | cons a as ih =>
    cases l2 with
    | nil => simp [List.isPrefixOf]
    | cons b bs =>
      simp only [List.isPrefixOf, Bool.and_eq_true, beq_iff_eq, ih]
      constructor
      · rintro ⟨rfl, t, rfl⟩; exact ⟨t, rfl⟩
      · rintro ⟨t, ht⟩
        injection ht with h1 h2
        exact ⟨h1.symm, t, h2⟩

theorem firstIdx?_spec (s pat : Str) (i : Nat) (h : firstIdx? s pat = some i) :
    pat.isPrefixOf (s.drop i) = true ∧
    ∀ j, j < i → pat.isPrefixOf (s.drop j) = false := by
  induction s generalizing i with
  | nil =>
    rw [firstIdx?] at h
    by_cases hp : pat.isPrefixOf ([] : Str) = true
    · simp [hp] at h
      subst h
      exact ⟨hp, fun j hj => absurd hj (Nat.not_lt_zero j)⟩
    · simp [Bool.eq_false_iff.mpr hp] at h
  | cons c rest ih =>
    rw [firstIdx?] at h
    by_cases hp : pat.isPrefixOf (c :: rest) = true
    · simp [hp] at h
      subst h
      exact ⟨hp, fun j hj => absurd hj (Nat.not_lt_zero j)⟩
    · simp [Bool.eq_false_iff.mpr hp] at h
      obtain ⟨i0, h0, rfl⟩ := h
      obtain ⟨h1, h2⟩ := ih i0 h0
      refine ⟨h1, ?_⟩
      intro j hj
      cases j with
      | zero => simpa using Bool.eq_false_iff.mpr hp
      | succ j0 => exact h2 j0 (Nat.lt_of_succ_lt_succ hj)

theorem firstIdx?_isSome_append (pat post : Str) :
    ∀ pre : Str, (firstIdx? (pre ++ (pat ++ post)) pat).isSome = true := by
  intro pre
  induction pre with
  | nil =>
    rw [List.nil_append, firstIdx?.eq_def]
    have hp : pat.isPrefixOf (pat ++ post) = true := by
      rw [isPrefixOf_eq_true_iff]
      exact ⟨post, rfl⟩
    rw [hp]
    simp
  | cons c cs ih =>
    simp only [List.cons_append]
    rw [firstIdx?.eq_def]
    cases hcase : pat.isPrefixOf (c :: (cs ++ (pat ++ post))) with
    | true => simp
    | false =>
      rw [Option.isSome_iff_exists] at ih
      obtain ⟨a, ha⟩ := ih
      simp [ha]

theorem firstIdx?_le_length (s pat : Str) :
    ∀ i, firstIdx? s pat = some i → i ≤ s.length := by
  induction s with
  | nil =>
    intro i h
    rw [firstIdx?.eq_def] at h
    by_cases hp : pat.isPrefixOf ([] : Str) = true
    · simp [hp] at h; omega
    · simp [Bool.eq_false_iff.mpr hp] at h
  | cons c rest ih =>
    intro i h
    rw [firstIdx?.eq_def] at h
    by_cases hp : pat.isPrefixOf (c :: rest) = true
    · simp [hp] at h; omega
    · simp [Bool.eq_false_iff.mpr hp] at h
      obtain ⟨i0, h0, rfl⟩ := h
      have := ih i0 h0
      simp
      omega

/-- `containsSub` agrees with the existence of a decomposition. -/
theorem containsSub_iff (s pat : Str) :
    containsSub s pat = true ↔ ∃ pre post, s = pre ++ pat ++ post := by
  constructor
  · intro h
    rw [containsSub, Option.isSome_iff_exists] at h
    obtain ⟨i, hi⟩ := h
    obtain ⟨h1, _⟩ := firstIdx?_spec s pat i hi
    rw [isPrefixOf_eq_true_iff] at h1
    obtain ⟨t, ht⟩ := h1
    refine ⟨s.take i, t, ?_⟩
    conv_lhs => rw [← List.take_append_drop i s, ht]
    simp
  · rintro ⟨pre, post, rfl⟩
    rw [containsSub, List.append_assoc]
    exact firstIdx?_isSome_append pat post pre

/-- `replaceFirst` replaces exactly the first occurrence: the untouched
prefix `pre` is minimal among all decompositions. -/
theorem replaceFirst_spec (s old new : Str) (h : containsSub s old = true) :
    ∃ pre post, s = pre ++ old ++ post ∧
      replaceFirst s old new = pre ++ new ++ post ∧
      ∀ pre2 post2, s = pre2 ++ old ++ post2 → pre.length ≤ pre2.length := by
  rw [containsSub, Option.isSome_iff_exists] at h
  obtain ⟨i, hi⟩ := h
  obtain ⟨h1, h2⟩ := firstIdx?_spec s old i hi
  have hile : i ≤ s.length := firstIdx?_le_length s old i hi
  have hlen_take : (s.take i).length = i := by
    simp [List.length_take]
    omega
  rw [isPrefixOf_eq_true_iff] at h1
  obtain ⟨t, ht⟩ := h1
  have hs : s = s.take i ++ old ++ t := by
    conv_lhs => rw [← List.take_append_drop i s, ht]
    simp
  have hdrop : s.drop (i + old.length) = t := by
    have hl : (s.take i ++ old).length = i + old.length := by
      simp [hlen_take]
    conv_lhs => rw [hs]
    exact List.drop_left' hl
  refine ⟨s.take i, t, hs, ?_, ?_⟩
  · have hr : replaceFirst s old new = s.take i ++ new ++ s.drop (i + old.length) := by
      rw [replaceFirst, hi]
    rw [hr, hdrop]
  · intro pre2 post2 hdec
    by_contra hlt
    push_neg at hlt
    rw [hlen_take] at hlt
    have hocc : old.isPrefixOf (s.drop pre2.length) = true := by
      rw [isPrefixOf_eq_true_iff]
      refine ⟨post2, ?_⟩
      rw [hdec, List.append_assoc]
      exact List.drop_left pre2 (old ++ post2)
    exact absurd hocc (by simp [h2 pre2.length hlt])

/-! ### Facts about the diff applier -/

theorem applyDiffList_length (ds : List CodeDiff) :
    ∀ code : Str, (applyDiffList code ds).2.length = ds.length := by
  induction ds with
  | nil => intro code; rfl
  | cons d ds ih =>
    intro code
    simp [applyDiffList, ih]

theorem workAt_zero (code : Str) (ds : List CodeDiff) : workAt code ds 0 = code := rfl

theorem workAt_cons (code : Str) (e : CodeDiff) (es : List CodeDiff) (i : Nat) :
    workAt code (e :: es) (i + 1) = workAt (applyOne code e).1 es i := by
  simp [workAt, List.take_succ_cons]

theorem workAt_succ (code : Str) (ds : List CodeDiff) (i : Nat) (d : CodeDiff)
    (h : ds[i]? = some d) :
    workAt code ds (i + 1) = (applyOne (workAt code ds i) d).1 := by
  unfold workAt
  rw [List.take_succ, h]
  simp [List.foldl_append]

theorem applyDiffList_get (ds : List CodeDiff) :
    ∀ (code : Str) (i : Nat) (d : CodeDiff), ds[i]? = some d →
      (applyDiffList code ds).2[i]? = some (applyOne (workAt code ds i) d).2 := by
  induction ds with
  | nil => intro code i d h; simp at h
  | cons e es ih =>
    intro code i d h
    cases i with
    | zero =>
      simp only [List.getElem?_cons_zero, Option.some.injEq] at h
      subst h
      simp [applyDiffList, workAt_zero]
    | succ i0 =>
      simp only [List.getElem?_cons_succ] at h
      have := ih (applyOne code e).1 i0 d h
      simp only [applyDiffList, List.getElem?_cons_succ]
      rw [workAt_cons]
      exact this

theorem applyDiffList_fst (ds : List CodeDiff) :
    ∀ code : Str, (applyDiffList code ds).1 = workAt code ds ds.length := by
  induction ds with
  | nil => intro code; rfl
  | cons e es ih =>
    intro code
    simp only [applyDiffList, List.length_cons]
    rw [workAt_cons]
    exact ih (applyOne code e).1

/-! ### Field-preservation facts about the workflow steps -/

theorem apply_diffs_max (st : EditState) (dg : DiffGenerated) :
    (apply_diffs st dg).1.max_iterations = st.max_iterations := by
  rw [apply_diffs]; split <;> rfl

theorem apply_diffs_hist (st : EditState) (dg : DiffGenerated) :
    (apply_diffs st dg).1.edit_history = st.edit_history := by
  rw [apply_diffs]; split <;> rfl

theorem apply_diffs_orig (st : EditState) (dg : DiffGenerated) :
    (apply_diffs st dg).1.original_request = st.original_request := by
  rw [apply_diffs]; split <;> rfl

theorem apply_diffs_iter (st : EditState) (dg : DiffGenerated) :
    (apply_diffs st dg).2.iteration = dg.iteration := by
  rw [apply_diffs]; split <;> rfl

theorem validate_code_max (cap : Capabilities) (st : EditState) (ev : DiffsApplied) :
    (validate_code cap st ev).1.max_iterations = st.max_iterations := rfl

theorem validate_code_hist (cap : Capabilities) (st : EditState) (ev : DiffsApplied) :
    (validate_code cap st ev).1.edit_history =
      st.edit_history ++
        [⟨ev.iteration,
          if ev.iteration = 1 then st.original_request
          else str "Refinement based on validation",
          ev.applied_changes, resultPreview ev.updated_code⟩] := rfl

theorem validate_code_iter (cap : Capabilities) (st : EditState) (ev : DiffsApplied) :
    (validate_code cap st ev).2.iteration = ev.iteration := rfl

theorem validate_code_valid (cap : Capabilities) (st : EditState) (ev : DiffsApplied) :
    (validate_code cap st ev).2.validation =
      validationResultOf cap ev.updated_code st.original_request := rfl

theorem validate_code_cur (cap : Capabilities) (st : EditState) (ev : DiffsApplied) :
    (validate_code cap st ev).2.current_code = ev.updated_code := rfl

theorem generate_diff_plan_iter (cap : Capabilities) (st : EditState)
    (r : Str) (i : Nat) : (generate_diff_plan cap st r i).iteration = i := by
  rw [generate_diff_plan]
  cases cap.propose st r i <;> rfl

/-- Characterization of one APPLY → VALIDATE → check round: either the
round stops (carrying the iteration number and one more history entry),
and then the validation was positive or the budget was exhausted; or it
loops with iteration incremented, the budget untouched, and one more
history entry. -/
theorem run_iteration_spec (cap : Capabilities) (st : EditState) (dg : DiffGenerated) :
    (∃ ec, run_iteration cap st dg = .done ec ∧
      ec.total_iterations = dg.iteration ∧
      ec.edit_history.length = st.edit_history.length + 1 ∧
      ((validationResultOf cap (apply_diffs st dg).2.updated_code
          st.original_request).is_valid = true ∨
        st.max_iterations ≤ dg.iteration)) ∨
    (∃ st2 dg2, run_iteration cap st dg = .next st2 dg2 ∧
      dg.iteration < st.max_iterations ∧
      dg2.iteration = dg.iteration + 1 ∧
      st2.max_iterations = st.max_iterations ∧
      st2.edit_history.length = st.edit_history.length + 1) := by
  have hvi : (validate_code cap (apply_diffs st dg).1 (apply_diffs st dg).2).2.iteration
      = dg.iteration := by
    rw [validate_code_iter, apply_diffs_iter]
  have hvm : (validate_code cap (apply_diffs st dg).1 (apply_diffs st dg).2).1.max_iterations
      = st.max_iterations := by
    rw [validate_code_max, apply_diffs_max]
  have hvl : (validate_code cap (apply_diffs st dg).1 (apply_diffs st dg).2).1.edit_history.length
      = st.edit_history.length + 1 := by
    rw [validate_code_hist]
    simp [apply_diffs_hist]
  have hvv : (validate_code cap (apply_diffs st dg).1 (apply_diffs st dg).2).2.validation
      = validationResultOf cap (apply_diffs st dg).2.updated_code st.original_request := by
    rw [validate_code_valid, apply_diffs_orig]
  rw [run_iteration, check_completion]
  by_cases hval :
      (validate_code cap (apply_diffs st dg).1 (apply_diffs st dg).2).2.validation.is_valid = true
  · rw [if_pos hval]
    left
    refine ⟨_, rfl, hvi, hvl, Or.inl ?_⟩
    rw [← hvv]
    exact hval
  · rw [if_neg hval]
    by_cases hlt :
        (validate_code cap (apply_diffs st dg).1 (apply_diffs st dg).2).2.iteration <
          (validate_code cap (apply_diffs st dg).1 (apply_diffs st dg).2).1.max_iterations
    · rw [if_pos hlt]
      right
      refine ⟨_, _, rfl, ?_, ?_, ?_, ?_⟩
      · rw [hvi, hvm] at hlt; exact hlt
      · rw [generate_diff_plan_iter, hvi]
      · simp [hvm]
      · simp [hvl]
    · rw [if_neg hlt]
      left
      refine ⟨_, rfl, hvi, hvl, Or.inr ?_⟩
      rw [hvi, hvm] at hlt
      omega

/-- With fuel at least `max_iterations - iteration`, the loop always
reaches an `EditCompleted`, with a bounded iteration count and one
history entry per executed iteration. -/
theorem runLoop_spec (cap : Capabilities) :
    ∀ (fuel : Nat) (st : EditState) (dg : DiffGenerated),
      dg.iteration ≤ st.max_iterations →
      st.max_iterations - dg.iteration ≤ fuel →
      ∃ ec, runLoop cap fuel st dg = some ec ∧
        dg.iteration ≤ ec.total_iterations ∧
        ec.total_iterations ≤ st.max_iterations ∧
        ec.edit_history.length =
          st.edit_history.length + (ec.total_iterations - dg.iteration) + 1 := by
  intro fuel
  induction fuel with
  | zero =>
    intro st dg hle hfuel
    rcases run_iteration_spec cap st dg with
      ⟨ec, he, h1, h2, _⟩ | ⟨st2, dg2, he, hlt, _, _, _⟩
    · exact ⟨ec, by simp [runLoop, he], by omega, by omega, by omega⟩
    · omega
  | succ f ih =>
    intro st dg hle hfuel
    rcases run_iteration_spec cap st dg with
      ⟨ec, he, h1, h2, _⟩ | ⟨st2, dg2, he, hlt, hi2, hm2, hl2⟩
    · exact ⟨ec, by simp [runLoop, he], by omega, by omega, by omega⟩
    · obtain ⟨ec, hec, ha, hb, hc⟩ := ih st2 dg2 (by omega) (by omega)
      refine ⟨ec, ?_, by omega, by omega, by omega⟩
      simp only [runLoop, he]
      exact hec

/-- When every validation verdict is invalid, the loop exhausts the whole
budget: it stops exactly at `max_iterations`, one history entry per
iteration. -/
theorem runLoop_invalid_spec (cap : Capabilities)
    (hv : ∀ c r, (validationResultOf cap c r).is_valid = false) :
    ∀ (fuel : Nat) (st : EditState) (dg : DiffGenerated),
      dg.iteration ≤ st.max_iterations →
      st.max_iterations - dg.iteration ≤ fuel →
      ∃ ec, runLoop cap fuel st dg = some ec ∧
        ec.total_iterations = st.max_iterations ∧
        ec.edit_history.length =
          st.edit_history.length + (st.max_iterations - dg.iteration) + 1 := by
  intro fuel
  induction fuel with
  | zero =>
    intro st dg hle hfuel
    rcases run_iteration_spec cap st dg with
      ⟨ec, he, h1, h2, hd⟩ | ⟨st2, dg2, he, hlt, _, _, _⟩
    · rcases hd with hd | hd
      · rw [hv] at hd; exact absurd hd (by simp)
      · exact ⟨ec, by simp [runLoop, he], by omega, by omega⟩
    · omega
  | succ f ih =>
    intro st dg hle hfuel
    rcases run_iteration_spec cap st dg with
      ⟨ec, he, h1, h2, hd⟩ | ⟨st2, dg2, he, hlt, hi2, hm2, hl2⟩
    · rcases hd with hd | hd
      · rw [hv] at hd; exact absurd hd (by simp)
      · exact ⟨ec, by simp [runLoop, he], by omega, by omega⟩
    · obtain ⟨ec, hec, ha, hb⟩ := ih st2 dg2 (by omega) (by omega)
      refine ⟨ec, ?_, by omega, by omega⟩
      simp only [runLoop, he]
      exact hec

theorem start_editing_fields (cap : Capabilities) (req : EditRequest) :
    (start_editing cap req).1.max_iterations = req.max_iterations ∧
    (start_editing cap req).1.edit_history = [] ∧
    (start_editing cap req).2.iteration = 1 := by
  refine ⟨rfl, rfl, ?_⟩
  simp only [start_editing]
  exact generate_diff_plan_iter cap _ req.edit_request 1

/-! ### Claim theorems for the diff editing workflow -/

/-- Claim C1: for every `EditRequest` with `max_iterations = M ≥ 1` and
every behaviour of the proposer and verifier capabilities (including
always-raising and always-invalid ones), the workflow terminates with an
`EditCompleted` whose `total_iterations` is at most `M`, having run
exactly `total_iterations` PROPOSE/APPLY/VALIDATE iterations (one history
entry each). -/
theorem C1_diff_editing_terminates (cap : Capabilities) (req : EditRequest)
    (hM : 1 ≤ req.max_iterations) :
    ∃ ec, runWorkflow cap req = some ec ∧
      ec.total_iterations ≤ req.max_iterations ∧
      ec.edit_history.length = ec.total_iterations := by
  obtain ⟨hm, hh, hi⟩ := start_editing_fields cap req
  obtain ⟨ec, hec, h1, h2, h3⟩ := runLoop_spec cap req.max_iterations
    (start_editing cap req).1 (start_editing cap req).2
    (by rw [hi, hm]; omega) (by rw [hi, hm]; omega)
  rw [hi] at h1 h3
  rw [hm] at h2
  rw [hh] at h3
  simp only [List.length_nil, Nat.zero_add] at h3
  exact ⟨ec, by rw [runWorkflow]; exact hec, h2, by omega⟩

/-- Witness for C1: a budget-1 request under always-raising capabilities. -/
theorem C1_diff_editing_terminates_witness :
    ∃ ec, runWorkflow alwaysFailCap sampleReq = some ec ∧
      ec.total_iterations ≤ sampleReq.max_iterations ∧
      ec.edit_history.length = ec.total_iterations :=
  C1_diff_editing_terminates alwaysFailCap sampleReq (by decide)

/-- Claim C9: with `max_iterations = 3` and a verifier always answering
`is_valid = false`, the controller runs exactly 3 cycles and terminates
with `total_iterations = 3` and exactly 3 history entries. -/
theorem C9_budget_exhaustion (cap : Capabilities) (req : EditRequest)
    (hv : ∀ c r, (validationResultOf cap c r).is_valid = false)
    (h3 : req.max_iterations = 3) :
    ∃ ec, runWorkflow cap req = some ec ∧
      ec.total_iterations = 3 ∧
      ec.edit_history.length = 3 := by
  obtain ⟨hm, hh, hi⟩ := start_editing_fields cap req
  obtain ⟨ec, hec, h1, h2⟩ := runLoop_invalid_spec cap hv req.max_iterations
    (start_editing cap req).1 (start_editing cap req).2
    (by rw [hi, hm, h3]; omega) (by rw [hi, hm]; omega)
  rw [hm, h3] at h1
  rw [hi, hm, hh, h3] at h2
  simp only [List.length_nil, Nat.zero_add] at h2
  exact ⟨ec, by rw [runWorkflow]; exact hec, h1, by omega⟩

/-- Witness for C9: concrete always-invalid verifier, budget 3. -/
theorem C9_budget_exhaustion_witness :
    ∃ ec, runWorkflow alwaysInvalidCap sampleReq3 = some ec ∧
      ec.total_iterations = 3 ∧
      ec.edit_history.length = 3 :=
  C9_budget_exhaustion alwaysInvalidCap sampleReq3 (fun _ _ => rfl) rfl

/-- Claim C4: if the `i`-th op's `old_text` does not occur in the working
copy at that point, a failed `AppliedChange` with error "Text not found"
is recorded for op `i`, op `i` leaves the working copy unchanged, every
op still yields exactly one `AppliedChange` (so ops after `i` are still
attempted), and VALIDATE still runs, appending a history entry carrying
all recorded changes. -/
theorem C4_per_diff_isolation (cap : Capabilities) (st : EditState)
    (dg : DiffGenerated) (i : Nat) (d : CodeDiff)
    (hd : dg.diff_plan.diffs[i]? = some d)
    (hnf : containsSub (workAt st.current_code dg.diff_plan.diffs i) d.old_text
      = false) :
    (applyDiffList st.current_code dg.diff_plan.diffs).2[i]? =
      some ⟨d.reason, d.old_text, d.new_text, false, some (str "Text not found")⟩ ∧
    workAt st.current_code dg.diff_plan.diffs (i + 1) =
      workAt st.current_code dg.diff_plan.diffs i ∧
    (applyDiffList st.current_code dg.diff_plan.diffs).2.length =
      dg.diff_plan.diffs.length ∧
    (apply_diffs st dg).2.applied_changes =
      (applyDiffList st.current_code dg.diff_plan.diffs).2 ∧
    (validate_code cap (apply_diffs st dg).1 (apply_diffs st dg).2).1.edit_history =
      st.edit_history ++
        [⟨dg.iteration,
          if dg.iteration = 1 then st.original_request
          else str "Refinement based on validation",
          (applyDiffList st.current_code dg.diff_plan.diffs).2,
          resultPreview (applyDiffList st.current_code dg.diff_plan.diffs).1⟩] := by
  have hne : dg.diff_plan.diffs.isEmpty = false := by
    cases hds : dg.diff_plan.diffs with
    | nil => rw [hds] at hd; simp at hd
    | cons _ _ => rfl
  have h2 : applyOne (workAt st.current_code dg.diff_plan.diffs i) d =
      (workAt st.current_code dg.diff_plan.diffs i,
        ⟨d.reason, d.old_text, d.new_text, false, some (str "Text not found")⟩) := by
    rw [applyOne, if_neg (by rw [hnf]; simp)]
  refine ⟨?_, ?_, applyDiffList_length _ _, ?_, ?_⟩
  · rw [applyDiffList_get _ _ _ _ hd, h2]
  · rw [workAt_succ _ _ _ _ hd, h2]
  · simp [apply_diffs, hne]
  · rw [validate_code_hist]
    simp [apply_diffs, hne]

/-- Witness for C4: a two-op plan whose first op's text is absent. -/
theorem C4_per_diff_isolation_witness :
    (applyDiffList sampleState.current_code samplePlanMiss.diff_plan.diffs).2[0]? =
      some ⟨str "r1", str "xyz", str "w", false, some (str "Text not found")⟩ ∧
    (applyDiffList sampleState.current_code samplePlanMiss.diff_plan.diffs).2.length =
      samplePlanMiss.diff_plan.diffs.length :=
  have h := C4_per_diff_isolation alwaysFailCap sampleState samplePlanMiss 0
    ⟨str "xyz", str "w", str "r1"⟩ (by decide) (by decide)
  ⟨h.1, h.2.2.1⟩

/-- Claim C7: diffs are applied strictly in plan order against the
accumulated working copy; an op whose `old_text` occurs replaces exactly
its first occurrence and contributes exactly one successful
`AppliedChange`. -/
theorem C7_apply_in_order (code : Str) (ds : List CodeDiff) (i : Nat)
    (d : CodeDiff) (hd : ds[i]? = some d)
    (hf : containsSub (workAt code ds i) d.old_text = true) :
    (applyDiffList code ds).2.length = ds.length ∧
    (applyDiffList code ds).2[i]? =
      some ⟨d.reason, d.old_text, d.new_text, true, none⟩ ∧
    workAt code ds (i + 1) =
      replaceFirst (workAt code ds i) d.old_text d.new_text ∧
    ∃ pre post, workAt code ds i = pre ++ d.old_text ++ post ∧
      workAt code ds (i + 1) = pre ++ d.new_text ++ post ∧
      ∀ pre2 post2, workAt code ds i = pre2 ++ d.old_text ++ post2 →
        pre.length ≤ pre2.length := by
  have h2 : applyOne (workAt code ds i) d =
      (replaceFirst (workAt code ds i) d.old_text d.new_text,
        ⟨d.reason, d.old_text, d.new_text, true, none⟩) := by
    rw [applyOne, if_pos hf]
  refine ⟨applyDiffList_length _ _, ?_, ?_, ?_⟩
  · rw [applyDiffList_get _ _ _ _ hd, h2]
  · rw [workAt_succ _ _ _ _ hd, h2]
  · obtain ⟨pre, post, hsp, hrp, hmin⟩ :=
      replaceFirst_spec (workAt code ds i) d.old_text d.new_text hf
    refine ⟨pre, post, hsp, ?_, hmin⟩
    rw [workAt_succ _ _ _ _ hd, h2]
    exact hrp

/-- Witness for C7: one op whose text occurs in `"hello"`. -/
theorem C7_apply_in_order_witness :
    (applyDiffList (str "hello") [⟨str "l", str "L", str "r"⟩]).2[0]? =
      some ⟨str "r", str "l", str "L", true, none⟩ :=
  (C7_apply_in_order (str "hello") [⟨str "l", str "L", str "r"⟩] 0
    ⟨str "l", str "L", str "r"⟩ (by decide) (by decide)).2.1

/-- Claim C8: an empty `DiffPlan` short-circuits APPLY (artifact unchanged,
no applied changes, state untouched), and VALIDATE still runs, appending
a history entry recording zero applied changes. -/
theorem C8_empty_plan (cap : Capabilities) (st : EditState) (dg : DiffGenerated)
    (h : dg.diff_plan.diffs = []) :
    (apply_diffs st dg).1 = st ∧
    (apply_diffs st dg).2.updated_code = st.current_code ∧
    (apply_diffs st dg).2.applied_changes = [] ∧
    (validate_code cap (apply_diffs st dg).1 (apply_diffs st dg).2).1.edit_history =
      st.edit_history ++
        [⟨dg.iteration,
          if dg.iteration = 1 then st.original_request
          else str "Refinement based on validation",
          [], resultPreview st.current_code⟩] := by
  have he : dg.diff_plan.diffs.isEmpty = true := by rw [h]; rfl
  refine ⟨?_, ?_, ?_, ?_⟩
  · simp [apply_diffs, he]
  · simp [apply_diffs, he]
  · simp [apply_diffs, he]
  · rw [validate_code_hist]
    simp [apply_diffs, he]

/-- Witness for C8: the empty plan on a concrete state. -/
theorem C8_empty_plan_witness :
    (apply_diffs sampleState samplePlanEmpty).1 = sampleState ∧
    (apply_diffs sampleState samplePlanEmpty).2.applied_changes = [] :=
  have h := C8_empty_plan alwaysFailCap sampleState samplePlanEmpty rfl
  ⟨h.1, h.2.2.1⟩

/-- Claim C5: a raising proposer yields an empty `DiffPlan` whose summary
contains the error message, and APPLY still runs as a no-op; a raising
verifier yields `is_valid = true` with the error message preserved in
`issues_found`, so `check_completion` terminates the run as if valid. -/
theorem C5_capability_fallbacks (cap : Capabilities) :
    (∀ st r i e, cap.propose st r i = .fail e →
      (generate_diff_plan cap st r i).diff_plan.diffs = [] ∧
      containsSub (generate_diff_plan cap st r i).diff_plan.summary e = true ∧
      (apply_diffs st (generate_diff_plan cap st r i)).2.applied_changes = [] ∧
      (apply_diffs st (generate_diff_plan cap st r i)).2.updated_code
        = st.current_code) ∧
    (∀ c orig e, cap.verify c orig = .fail e →
      validationResultOf cap c orig =
        ⟨true, [str "Validation error: " ++ e], []⟩ ∧
      (∃ m ∈ (validationResultOf cap c orig).issues_found,
        containsSub m e = true) ∧
      ∀ st2 cur i2,
        check_completion cap st2 ⟨validationResultOf cap c orig, cur, i2⟩ =
          .done ⟨cur, st2.edit_history, i2⟩) := by
  constructor
  · intro st r i e hp
    have hg : generate_diff_plan cap st r i =
        ⟨⟨[], str "Error generating diffs: " ++ e⟩, i⟩ := by
      rw [generate_diff_plan, hp]
    refine ⟨by rw [hg], ?_, by rw [hg]; rfl, by rw [hg]; rfl⟩
    rw [hg, containsSub_iff]
    exact ⟨str "Error generating diffs: ", [], by simp⟩
  · intro c orig e hvf
    have hval : validationResultOf cap c orig =
        ⟨true, [str "Validation error: " ++ e], []⟩ := by
      rw [validationResultOf, hvf]
    refine ⟨hval, ?_, ?_⟩
    · rw [hval]
      refine ⟨str "Validation error: " ++ e, by simp, ?_⟩
      rw [containsSub_iff]
      exact ⟨str "Validation error: ", [], by simp⟩
    · intro st2 cur i2
      rw [check_completion]
      rw [if_pos (by rw [hval])]

/-- Witness for C5: both capabilities raising on concrete inputs. -/
theorem C5_capability_fallbacks_witness :
    (generate_diff_plan alwaysFailCap sampleState (str "r") 1).diff_plan.diffs = [] ∧
    validationResultOf alwaysFailCap (str "c") (str "o") =
      ⟨true, [str "Validation error: " ++ str "crash"], []⟩ :=
  ⟨((C5_capability_fallbacks alwaysFailCap).1 sampleState (str "r") 1
      (str "boom") rfl).1,
    ((C5_capability_fallbacks alwaysFailCap).2 (str "c") (str "o")
      (str "crash") rfl).1⟩

/-! ### Claim theorems for tag dispatch and session termination -/

/-- A sub-handler result is never a `StopEvent`. -/
theorem toStep_ne_stop (r : NonStopResult) (msg : Str) :
    r.toStep ≠ StepResult.stop msg := by
  cases r <;> simp [NonStopResult.toStep]

/-- Claim C3: a tag accepted by a specific handler (exact tags
`folder_name_input`, `load_workflow`, `file_selection`, `config_menu`,
`model_selection`, `review_diff_conversational`, `review_edit`,
`test_workflow`, or a truthy tag starting with `config_edit_`) is
rejected by every other handler's guard, including the catch-all —
those steps return immediately with no side effects. -/
theorem C3_dispatch_exclusivity (t : Option Str) (h : HandlerId)
    (hs : h ≠ HandlerId.general) (hacc : acceptsTag h t = true) :
    ∀ h2 : HandlerId, h2 ≠ h → acceptsTag h2 t = false := by
  cases h with
  | general => exact absurd rfl hs
  | config_edit =>
    cases t with
    | none => simp [acceptsTag] at hacc
    | some s =>
      simp only [acceptsTag, Bool.and_eq_true, Bool.not_eq_true'] at hacc
      obtain ⟨hne, hp⟩ := hacc
      intro h2 hne2
      cases h2 with
      | config_edit => exact absurd rfl hne2
      | general =>
        simp only [acceptsTag, Bool.or_eq_false_iff]
        refine ⟨hne, ?_⟩
        cases hg : s == str "general" with
        | false => rfl
        | true =>
          have : s = str "general" := eq_of_beq hg
          subst this
          exact absurd hp (by decide)
      | folder_name =>
        simp only [acceptsTag, beq_eq_false_iff_ne, ne_eq, Option.some.injEq]
        intro hcontra
        subst hcontra
        exact absurd hp (by decide)
      | load_workflow =>
        simp only [acceptsTag, beq_eq_false_iff_ne, ne_eq, Option.some.injEq]
        intro hcontra
        subst hcontra
        exact absurd hp (by decide)
      | file_selection =>
        simp only [acceptsTag, beq_eq_false_iff_ne, ne_eq, Option.some.injEq]
        intro hcontra
        subst hcontra
        exact absurd hp (by decide)
      | config_menu =>
        simp only [acceptsTag, beq_eq_false_iff_ne, ne_eq, Option.some.injEq]
        intro hcontra
        subst hcontra
        exact absurd hp (by decide)
      | model_selection =>
        simp only [acceptsTag, beq_eq_false_iff_ne, ne_eq, Option.some.injEq]
        intro hcontra
        subst hcontra
        exact absurd hp (by decide)
      | review_diff =>
        simp only [acceptsTag, beq_eq_false_iff_ne, ne_eq, Option.some.injEq]
        intro hcontra
        subst hcontra
        exact absurd hp (by decide)
      | review_edit =>
        simp only [acceptsTag, beq_eq_false_iff_ne, ne_eq, Option.some.injEq]
        intro hcontra
        subst hcontra
        exact absurd hp (by decide)
      | test_workflow =>
        simp only [acceptsTag, beq_eq_false_iff_ne, ne_eq, Option.some.injEq]
        intro hcontra
        subst hcontra
        exact absurd hp (by decide)
  | folder_name =>
    have ht : t = some (str "folder_name_input") :=
      eq_of_beq (by simpa [acceptsTag] using hacc)
    subst ht
    intro h2 hne
    cases h2 <;> first | exact absurd rfl hne | decide
  | load_workflow =>
    have ht : t = some (str "load_workflow") :=
      eq_of_beq (by simpa [acceptsTag] using hacc)
    subst ht
    intro h2 hne
    cases h2 <;> first | exact absurd rfl hne | decide
  | file_selection =>
    have ht : t = some (str "file_selection") :=
      eq_of_beq (by simpa [acceptsTag] using hacc)
    subst ht
    intro h2 hne
    cases h2 <;> first | exact absurd rfl hne | decide
  | config_menu =>
    have ht : t = some (str "config_menu") :=
      eq_of_beq (by simpa [acceptsTag] using hacc)
    subst ht
    intro h2 hne
    cases h2 <;> first | exact absurd rfl hne | decide
  | model_selection =>
    have ht : t = some (str "model_selection") :=
      eq_of_beq (by simpa [acceptsTag] using hacc)
    subst ht
    intro h2 hne
    cases h2 <;> first | exact absurd rfl hne | decide
  | review_diff =>
    have ht : t = some (str "review_diff_conversational") :=
      eq_of_beq (by simpa [acceptsTag] using hacc)
    subst ht
    intro h2 hne
    cases h2 <;> first | exact absurd rfl hne | decide
  | review_edit =>
    have ht : t = some (str "review_edit") :=
      eq_of_beq (by simpa [acceptsTag] using hacc)
    subst ht
    intro h2 hne
    cases h2 <;> first | exact absurd rfl hne | decide
  | test_workflow =>
    have ht : t = some (str "test_workflow") :=
      eq_of_beq (by simpa [acceptsTag] using hacc)
    subst ht
    intro h2 hne
    cases h2 <;> first | exact absurd rfl hne | decide

/-- Witness for C3: the `test_workflow` tag is accepted only by its
handler. -/
theorem C3_dispatch_exclusivity_witness :
    acceptsTag HandlerId.config_menu (some (str "test_workflow")) = false ∧
    acceptsTag HandlerId.general (some (str "test_workflow")) = false :=
  ⟨C3_dispatch_exclusivity (some (str "test_workflow")) HandlerId.test_workflow
      (by decide) (by decide) HandlerId.config_menu (by decide),
    C3_dispatch_exclusivity (some (str "test_workflow")) HandlerId.test_workflow
      (by decide) (by decide) HandlerId.general (by decide)⟩

/-- Counterexample to claim C2 as stated: an event carrying a non-empty
tag (`"unknown_tag"`) claimed by no specific handler is NOT routed to the
catch-all — `handle_general_input`'s guard rejects it (its guard rejects
every truthy tag other than `"general"`), and no handler at all accepts
it; even an explicit quit text is ignored under such a tag. -/
theorem C2_counterexample :
    acceptsTag HandlerId.general (some (str "unknown_tag")) = false ∧
    anyHandlerAccepts (some (str "unknown_tag")) = false ∧
    handle_general_input sampleSub (str "ready") (some (str "unknown_tag"))
      (str "quit") = StepResult.unhandled := by
  refine ⟨by decide, by decide, ?_⟩
  rw [handle_general_input, if_neg (by decide)]

/-- Claim C2 (amended): a `HumanResponseEvent` with no tag, an empty tag,
or the tag `"general"` is accepted by the catch-all `handle_general_input`
and by no other step; an event whose non-empty tag differs from
`"general"` is rejected by the catch-all too, so if no specific handler
claims the tag the event is accepted by no step at all (rather than
falling through to the catch-all). -/
theorem C2_catch_all_amended :
    (∀ t : Option Str,
      (t = none ∨ t = some [] ∨ t = some (str "general")) →
      acceptsTag HandlerId.general t = true ∧
      ∀ h : HandlerId, h ≠ HandlerId.general → acceptsTag h t = false) ∧
    (∀ s : Str, s ≠ [] → s ≠ str "general" →
      acceptsTag HandlerId.general (some s) = false) := by
  constructor
  · intro t ht
    rcases ht with rfl | rfl | rfl
    · exact ⟨by decide, fun h hne => by
        cases h <;> first | exact absurd rfl hne | decide⟩
    · exact ⟨by decide, fun h hne => by
        cases h <;> first | exact absurd rfl hne | decide⟩
    · exact ⟨by decide, fun h hne => by
        cases h <;> first | exact absurd rfl hne | decide⟩
  · intro s hne hng
    simp only [acceptsTag, Bool.or_eq_false_iff]
    constructor
    · cases s with
      | nil => exact absurd rfl hne
      | cons a as => rfl
    · cases hg : s == str "general" with
      | false => rfl
      | true => exact absurd (eq_of_beq hg) hng

/-- Witness for C2 (amended). -/
theorem C2_catch_all_amended_witness :
    acceptsTag HandlerId.general (some (str "general")) = true ∧
    acceptsTag HandlerId.general (some (str "weird")) = false :=
  ⟨(C2_catch_all_amended.1 (some (str "general")) (Or.inr (Or.inr rfl))).1,
    C2_catch_all_amended.2 (str "weird") (by decide) (by decide)⟩

/-- Claim C6: capability failures (proposer, verifier, per-diff "text not
found") never end the session — for every capability behaviour the edit
handler returns an `InputRequiredEvent` suspension (tagged
`review_diff_conversational` on completion of the sub-workflow); and the
only way `handle_general_input` produces a terminating `StopEvent` is an
effectively untagged response (none, empty, or `"general"` — the tags the
catch-all accepts), outside the configuring state, whose stripped
lowercased text is `quit`, `exit` or `bye`. -/
theorem C6_only_quit_stops (cap : Capabilities) (sub : SubHandlers) :
    (∀ req, ∃ t, handle_edit_workflow cap req = StepResult.input_required t) ∧
    (∀ req, 1 ≤ req.max_iterations →
      handle_edit_workflow cap req =
        StepResult.input_required (some (str "review_diff_conversational"))) ∧
    (∀ appState tag response msg,
      handle_general_input sub appState tag response = StepResult.stop msg →
      acceptsTag HandlerId.general tag = true ∧
      quitCommands.contains (pyLower (pyStrip response)) = true ∧
      appState ≠ str "configuring" ∧
      msg = str "👋 Goodbye!") := by
  refine ⟨?_, ?_, ?_⟩
  · intro req
    rw [handle_edit_workflow]
    cases runWorkflow cap req with
    | none => exact ⟨none, rfl⟩
    | some ec => exact ⟨some (str "review_diff_conversational"), rfl⟩
  · intro req hM
    obtain ⟨hm, hh, hi⟩ := start_editing_fields cap req
    obtain ⟨ec, hec, _, _, _⟩ := runLoop_spec cap req.max_iterations
      (start_editing cap req).1 (start_editing cap req).2
      (by rw [hi, hm]; omega) (by rw [hi, hm]; omega)
    have hw : runWorkflow cap req = some ec := by rw [runWorkflow]; exact hec
    rw [handle_edit_workflow, hw]
  · intro appState tag response msg h
    rw [handle_general_input] at h
    by_cases hacc : acceptsTag HandlerId.general tag = true
    · rw [if_pos hacc] at h
      by_cases hconf : appState = str "configuring"
      · rw [if_pos hconf] at h
        exact absurd h (toStep_ne_stop _ _)
      · rw [if_neg hconf] at h
        by_cases hquit :
            quitCommands.contains (pyLower (pyStrip response)) = true
        · rw [if_pos hquit] at h
          injection h with h1
          exact ⟨hacc, hquit, hconf, h1.symm⟩
        · rw [if_neg hquit] at h
          by_cases hslash : (str "/").isPrefixOf (pyStrip response) = true
          · rw [if_pos hslash] at h
            exact absurd h (toStep_ne_stop _ _)
          · rw [if_neg hslash] at h
            by_cases hhelp : pyLower (pyStrip response) = str "help"
            · rw [if_pos hhelp] at h
              exact absurd h (toStep_ne_stop _ _)
            · rw [if_neg hhelp] at h
              exact absurd h (toStep_ne_stop _ _)
    · rw [if_neg hacc] at h
      simp at h

/-- Witness for C6: always-raising capabilities still yield a review
suspension; the stop characterization applied to a real quit input. -/
theorem C6_only_quit_stops_witness :
    handle_edit_workflow alwaysFailCap sampleReq =
      StepResult.input_required (some (str "review_diff_conversational")) ∧
    (acceptsTag HandlerId.general none = true ∧
      quitCommands.contains (pyLower (pyStrip (str "  Quit "))) = true ∧
      str "ready" ≠ str "configuring" ∧
      str "👋 Goodbye!" = str "👋 Goodbye!") :=
  ⟨(C6_only_quit_stops alwaysFailCap sampleSub).2.1 sampleReq (by decide),
    (C6_only_quit_stops alwaysFailCap sampleSub).2.2 (str "ready") none
      (str "  Quit ") (str "👋 Goodbye!") (by decide)⟩

/-- Claim C10: when the LLM intent call raises, classification falls back
to keyword substring matching with approve keywords ("y" among them)
tested first; hence any input whose lowercased text contains the
character `y` anywhere — including "try again" and "cancel everything" —
is classified "approve", and only inputs containing no approve keyword
can reach the "exit" or "continue" branches. -/
theorem C10_fallback_y_bias :
    (∀ (llm : Str → CapResult Str) (s e : Str), llm s = .fail e →
      interpret_user_intent llm s = interpret_user_intent_fallback s) ∧
    (∀ s : Str, containsSub (pyLower s) (str "y") = true →
      interpret_user_intent_fallback s = str "approve") ∧
    interpret_user_intent_fallback (str "try again") = str "approve" ∧
    interpret_user_intent_fallback (str "cancel everything") = str "approve" ∧
    (∀ s : Str, interpret_user_intent_fallback s ≠ str "approve" →
      ∀ w ∈ approveWords, containsSub (pyLower s) w = false) := by
  have key : ∀ s : Str, containsSub (pyLower s) (str "y") = true →
      interpret_user_intent_fallback s = str "approve" := by
    intro s hy
    have hany : approveWords.any (fun w => containsSub (pyLower s) w) = true := by
      rw [List.any_eq_true]
      exact ⟨str "y", by decide, hy⟩
    rw [interpret_user_intent_fallback, if_pos hany]
  refine ⟨?_, key, key _ (by decide), key _ (by decide), ?_⟩
  · intro llm s e hfail
    rw [interpret_user_intent, hfail]
  · intro s hne w hw
    by_cases hany : approveWords.any (fun w => containsSub (pyLower s) w) = true
    · exact absurd (by rw [interpret_user_intent_fallback, if_pos hany]) hne
    · rw [List.any_eq_true] at hany
      push_neg at hany
      simpa using hany w hw

/-- Witness for C10. -/
theorem C10_fallback_y_bias_witness :
    interpret_user_intent_fallback (str "yo") = str "approve" :=
  C10_fallback_y_bias.2.1 (str "yo") (by decide)

end VibeLlama
